import Mathlib

/-!
Verification of the orchestration core of the smart-contract-generator
repository (`src/graph/workflow.py`, `src/schemas/models.py`) against its
natural-language specification.

Python dictionaries are modelled as association lists `List (String × α)`
with unique keys maintained by `dictInsert` (assignment `d[k] = v` replaces
the value in place, preserving insertion order, exactly as a Python dict
does).  Python `set` values that only undergo membership tests are modelled
as `List String` up to membership.  Fallible Python code (code that can
raise) is modelled in the `Except` monad.
-/

/-- In-place dictionary assignment `d[k] = v`: if the key is present its
value is replaced at its original position, otherwise the pair is appended,
mirroring CPython dict semantics. -/
def dictInsert {α : Type} : List (String × α) → String → α → List (String × α)
  | [], k, v => [(k, v)]
  | kv :: t, k, v => if kv.1 = k then (k, v) :: t else kv :: dictInsert t k v

/-- The Python merge `{**d, **u}` / a loop of assignments of `u` into `d`. -/
def dictUpdate {α : Type} (d u : List (String × α)) : List (String × α) :=
  u.foldl (fun acc kv => dictInsert acc kv.1 kv.2) d

/-- `workflow.py` lines 171-182: the `control_fields` set of `_safe_merge`. -/
def control_fields : List String :=
  ["user_spec", "project_name", "retry_count", "project_root", "current_step",
   "validation_passed", "build_success", "final_artifact", "on_event", "test_mode"]

/-- One iteration of the merge loops of `_safe_merge` (lines 186-191):
`if key not in control_fields: merged[key] = value`. -/
def safeMergeStep {α : Type} (acc : List (String × α)) (kv : String × α) :
    List (String × α) :=
  if kv.1 ∈ control_fields then acc else dictInsert acc kv.1 kv.2

/-- `workflow.py` lines 164-193, `_safe_merge(state, agent_result)`:
`state.model_dump()` is the first association list, the agent result the
second; both are folded into an initially empty dict, skipping control
fields. -/
def safe_merge {α : Type} (stateDump agentResult : List (String × α)) :
    List (String × α) :=
  agentResult.foldl safeMergeStep (stateDump.foldl safeMergeStep [])

/-- `models.py` line 9: `MAX_RETRIES = 1`. -/
def MAX_RETRIES : Nat := 1

/-- `models.py` lines 131-140, `FileBatch`: a batch of files generated
together.  `priority` is carried but never read by the scheduler. -/
structure FileBatch where
  batch_id : String
  file_paths : List String
  description : String := ""
  dependencies : List String := []
  priority : Int := 0
  deriving Repr, DecidableEq

/-- `models.py` lines 143-150, `GenerationPlan` (the plan dict consumed by
`batch_processor_node`): `batches`, `total_files`, and `generation_order`
(the execution steps, each a list of batch ids). -/
structure GenerationPlan where
  batches : List FileBatch
  total_files : Nat := 0
  generation_order : List (List String)
  deriving Repr, DecidableEq

/-- `workflow.py` line 419/426: `next((b for b in batches if
b.get("batch_id") == bid), None)` — the first batch with the given id. -/
def findBatch (batches : List FileBatch) (bid : String) : Option FileBatch :=
  batches.find? (fun b => b.batch_id == bid)

/-- `workflow.py` lines 423-434: a batch's dependencies are satisfied when,
for every dependency id that resolves to a batch, every file of that batch
is already generated (`completed`).  An id that resolves to no batch is
skipped (`if dep_batch:`), leaving the flag true. -/
def depsSatisfied (batches : List FileBatch) (completed : List String)
    (batch : FileBatch) : Bool :=
  batch.dependencies.all (fun dep_id =>
    match findBatch batches dep_id with
    | some dep_batch => dep_batch.file_paths.all (fun f => decide (f ∈ completed))
    | none => true)

/-- `workflow.py` line 437: `any(f in pending for f in batch["file_paths"])`. -/
def hasPendingFiles (pending : List String) (batch : FileBatch) : Bool :=
  batch.file_paths.any (fun f => decide (f ∈ pending))

/-- Inner loop of lines 418-441: scan the batch ids of one execution step in
declared order, skipping unresolved ids, and stop at the first batch whose
dependencies are satisfied and which still has pending files. -/
def findInStep (batches : List FileBatch) (completed pending : List String) :
    List String → Option FileBatch
  | [] => none
  | bid :: rest =>
    match findBatch batches bid with
    | none => findInStep batches completed pending rest
    | some b =>
      if depsSatisfied batches completed b && hasPendingFiles pending b then some b
      else findInStep batches completed pending rest

/-- Outer loop of lines 417-443: scan execution steps in order; the first
step producing a ready batch wins (`if batch_to_process: break`). -/
def nextReadyBatchAux (batches : List FileBatch) (completed pending : List String) :
    List (List String) → Option FileBatch
  | [] => none
  | step :: rest =>
    match findInStep batches completed pending step with
    | some b => some b
    | none => nextReadyBatchAux batches completed pending rest

/-- `workflow.py` lines 414-443: the ready-batch search of
`batch_processor_node`, with `completed = set(state.generated_files)` and
`pending = set(state.pending_files)` (passed here as key lists). -/
def nextReadyBatch (plan : GenerationPlan) (completed pending : List String) :
    Option FileBatch :=
  nextReadyBatchAux plan.batches completed pending plan.generation_order

/-- `workflow.py` lines 478-482: restrict the files produced by the agent to
the paths declared by the current batch. -/
def filterToBatch (batch : FileBatch) (produced : List (String × String)) :
    List (String × String) :=
  produced.filter (fun kv => decide (kv.1 ∈ batch.file_paths))

/-- `workflow.py` lines 478-501: the ledger update of one batch step.
`new_files` is the produced map filtered to the batch's declared paths;
`generated' = {**generated, **new_files}`; `pending'` drops the keys of
`new_files`.  Returns the new `(generated_files, pending_files)` pair; the
inputs are not touched (the embedding is purely functional, and the Python
code likewise builds fresh dicts). -/
def recordBatchResult (generated pending : List (String × String))
    (batch : FileBatch) (produced : List (String × String)) :
    List (String × String) × List (String × String) :=
  let new_files := filterToBatch batch produced
  (dictUpdate generated new_files,
   pending.filter (fun kv => decide (¬ kv.1 ∈ new_files.map Prod.fst)))

/-- `models.py` lines 65-92, `GraphState`, restricted to the fields the
orchestration claims are about.  `on_event` is modelled separately (see
`runAgentNodeEvents`); payload fields not read by any routing predicate or
scheduler are omitted. -/
structure GraphState where
  retry_count : Nat := 0
  validation_passed : Bool := false
  build_success : Bool := false
  generation_plan : Option GenerationPlan := none
  pending_files : List (String × String) := []
  generated_files : List (String × String) := []
  deriving Repr, DecidableEq

/-- `workflow.py` lines 128-135, `should_proceed_to_build`. -/
def should_proceed_to_build (state : GraphState) : String :=
  if state.validation_passed then "build"
  else if state.retry_count < MAX_RETRIES then "debugger"
  else "abort"

/-- `workflow.py` lines 138-145, `should_proceed_to_end`. -/
def should_proceed_to_end (state : GraphState) : String :=
  if state.build_success then "end"
  else if state.retry_count < MAX_RETRIES then "debugger"
  else "abort"

/-- `workflow.py` lines 148-161, `has_more_batches`: legacy mode (no plan)
is always "done"; otherwise "continue" exactly when pending files remain. -/
def has_more_batches (state : GraphState) : String :=
  match state.generation_plan with
  | none => "done"
  | some _ => if state.pending_files.isEmpty then "done" else "continue"

/-- `workflow.py` lines 393-522, `batch_processor_node`, restricted to its
effect on the generation ledger, in the `Except` monad (a Python exception
is `Except.error`).  With no plan (or an empty batch list) the legacy path
runs, whose returned `GraphState` leaves the incremental-tracking fields at
their defaults (lines 558-570).  When a ready batch exists, the ledger is
updated by `recordBatchResult` and `retry_count` is reattached unchanged
(line 518).  When no batch is ready, lines 451-459 execute
`GraphState(**state.model_dump(), pending_files={}, user_spec=..., ...)`:
`pending_files`, `user_spec`, `retry_count`, `project_root`, `on_event` and
`test_mode` are all passed twice (once inside `model_dump()` and once
explicitly), so CPython raises `TypeError: got multiple values for keyword
argument` before any state is returned; that branch is therefore an error,
not a normal return. -/
def batch_processor_step (state : GraphState)
    (produce : FileBatch → List (String × String)) : Except String GraphState :=
  match state.generation_plan with
  | none => Except.ok { state with pending_files := [], generated_files := [] }
  | some plan =>
    if plan.batches.isEmpty then
      Except.ok { state with pending_files := [], generated_files := [] }
    else
      match nextReadyBatch plan (state.generated_files.map Prod.fst)
          (state.pending_files.map Prod.fst) with
      | none =>
        Except.error "TypeError: GraphState() got multiple values for keyword argument"
      | some b =>
        let updated := recordBatchResult state.generated_files state.pending_files b
          (produce b)
        Except.ok { state with generated_files := updated.1, pending_files := updated.2 }

/-- The nodes of the LangGraph workflow built in `create_workflow`
(`workflow.py` lines 63-125).  `endNode` is LangGraph's `END`; `abort` is
the terminal error node. -/
inductive Node where
  | spec_interpreter
  | project_planner
  | file_planner
  | batch_processor
  | static_validator
  | build_contract
  | debugger
  | abort
  | endNode
  deriving Repr, DecidableEq

/-- Conditional-edge map of lines 101-109: route the string returned by
`should_proceed_to_build`. -/
def routeValidator (r : String) : Node :=
  if r = "build" then Node.build_contract
  else if r = "debugger" then Node.debugger
  else Node.abort

/-- Conditional-edge map of lines 112-120: route the string returned by
`should_proceed_to_end`. -/
def routeBuilder (r : String) : Node :=
  if r = "end" then Node.endNode
  else if r = "debugger" then Node.debugger
  else Node.abort

/-- Conditional-edge map of lines 91-98: route the string returned by
`has_more_batches`. -/
def routeBatches (r : String) : Node :=
  if r = "continue" then Node.batch_processor else Node.static_validator

/-- One transition of the workflow state machine.  A configuration is the
node about to run paired with the current state.  Each step runs the node (a
node's effect on payload fields is produced by external agents and is
unconstrained here, but every node reattaches `retry_count` explicitly:
`retry_count=state.retry_count` everywhere except `debugger_node`, which
uses `state.retry_count + 1` at line 685) and then follows the node's
outgoing edge, conditional edges being evaluated on the node's output
state.  `abort` and `endNode` have no outgoing edges. -/
inductive Step : Node × GraphState → Node × GraphState → Prop where
  | interpret (s s' : GraphState) (h : s'.retry_count = s.retry_count) :
      Step (Node.spec_interpreter, s) (Node.project_planner, s')
  | planProject (s s' : GraphState) (h : s'.retry_count = s.retry_count) :
      Step (Node.project_planner, s) (Node.file_planner, s')
  | planFiles (s s' : GraphState) (h : s'.retry_count = s.retry_count) :
      Step (Node.file_planner, s) (Node.batch_processor, s')
  | processBatch (s s' : GraphState) (h : s'.retry_count = s.retry_count) :
      Step (Node.batch_processor, s) (routeBatches (has_more_batches s'), s')
  | validate (s s' : GraphState) (h : s'.retry_count = s.retry_count) :
      Step (Node.static_validator, s) (routeValidator (should_proceed_to_build s'), s')
  | build (s s' : GraphState) (h : s'.retry_count = s.retry_count) :
      Step (Node.build_contract, s) (routeBuilder (should_proceed_to_end s'), s')
  | repair (s s' : GraphState) (h : s'.retry_count = s.retry_count + 1) :
      Step (Node.debugger, s) (Node.build_contract, s')

/-- A list of configurations in which every adjacent pair is a `Step`. -/
def chainStep : List (Node × GraphState) → Prop
  | [] => True
  | [_] => True
  | a :: b :: t => Step a b ∧ chainStep (b :: t)

/-- Number of configurations of a run that sit at the repair node
(`debugger`), i.e. the number of times the repair stage is entered. -/
def countDebugger (l : List (Node × GraphState)) : Nat :=
  (l.filter (fun c => decide (c.1 = Node.debugger))).length

/-- All artifact paths declared by a plan, in batch order. -/
def allPaths (plan : GenerationPlan) : List String :=
  (plan.batches.map (fun b => b.file_paths)).flatten

/-- The batch ids listed by a plan's execution steps, flattened. -/
def orderIds (plan : GenerationPlan) : List String :=
  plan.generation_order.flatten

/-- The generate-batch loop (conditional edge `has_more_batches` plus
`batch_processor_node`) as an explicit fuelled iteration of the
select/record cycle.  When `pending` is empty the router reports "done" and
the loop exits; otherwise the next ready batch is selected, its produced
files (filtered to its declared paths) are recorded — `completed` gains the
recorded keys, `pending` loses them — and the loop re-enters.  A stall (no
ready batch although paths are pending) is the erroneous branch of
`batch_processor_step` and is returned as an error.  The result is the list
of visited batch ids and the final completed/pending key sets. -/
def runScheduler (plan : GenerationPlan) (produce : FileBatch → List (String × String)) :
    Nat → List String → List String → Except String (List String × List String × List String)
  | 0, completed, pending => Except.ok ([], completed, pending)
  | fuel + 1, completed, pending =>
    if pending.isEmpty then Except.ok ([], completed, pending)
    else
      match nextReadyBatch plan completed pending with
      | none => Except.error "stall"
      | some b =>
        let nfk := (filterToBatch b (produce b)).map Prod.fst
        match runScheduler plan produce fuel (completed ++ nfk)
            (pending.filter (fun q => decide (¬ q ∈ nfk))) with
        | Except.error e => Except.error e
        | Except.ok (vis, c, p) => Except.ok (b.batch_id :: vis, c, p)

/-- Checks that each execution step only names batches all of whose
dependency ids already occur in earlier steps (`prev`). -/
def layeredCheck (batches : List FileBatch) : List String → List (List String) → Bool
  | _, [] => true
  | prev, step :: rest =>
    step.all (fun bid =>
      match findBatch batches bid with
      | some b => b.dependencies.all (fun d => decide (d ∈ prev))
      | none => true)
    && layeredCheck batches (prev ++ step) rest

/-- Well-formedness of a generation plan, as the spec's plan invariants
state them: unique batch ids, globally unique artifact paths, non-empty
artifact lists, every batch mentioned by the execution steps, every
dependency id resolving to a batch, and the steps forming a valid
topological layering of the dependency graph. -/
@[reducible] def ValidPlan (plan : GenerationPlan) : Prop :=
  (plan.batches.map (fun b => b.batch_id)).Nodup
  ∧ (allPaths plan).Nodup
  ∧ (∀ b ∈ plan.batches, b.file_paths ≠ [])
  ∧ (∀ b ∈ plan.batches, b.batch_id ∈ orderIds plan)
  ∧ (∀ b ∈ plan.batches, ∀ d ∈ b.dependencies, (findBatch plan.batches d).isSome = true)
  ∧ layeredCheck plan.batches [] plan.generation_order = true

/-- The content producer covers the selected batch: every declared path of a
batch occurs among the produced keys (the normal operation of the code
generator, whose result is filtered to the batch's paths at line 480). -/
@[reducible] def Covers (plan : GenerationPlan)
    (produce : FileBatch → List (String × String)) : Prop :=
  ∀ b ∈ plan.batches, ∀ p ∈ b.file_paths, p ∈ (produce b).map Prod.fst

/-- Ledger invariant threaded through the generate-batch loop: pending paths
are planned paths, a planned path is completed exactly when it is no longer
pending, and batches complete atomically (a batch's paths are either all
pending or all completed). -/
structure SchedInv (plan : GenerationPlan) (completed pending : List String) : Prop where
  pend_sub : ∀ p ∈ pending, p ∈ allPaths plan
  part : ∀ p ∈ allPaths plan, (p ∈ completed ↔ ¬ p ∈ pending)
  atomic : ∀ b ∈ plan.batches,
    (∀ p ∈ b.file_paths, p ∈ pending) ∨ (∀ p ∈ b.file_paths, p ∈ completed)

/-- `workflow.py` lines 198-199 etc.: `if state.on_event:
state.on_event(msg)` — the observer is called unguarded, so an exception it
raises propagates to the caller of the node. -/
def emitEvent (obs : Option (String → Except String Unit)) (msg : String) :
    Except String Unit :=
  match obs with
  | some f => f msg
  | none => Except.ok ()

/-- `workflow.py` lines 196-234, `_run_agent_node`, restricted to its
observer interaction and outcome: the `agent:<name>:start` event is emitted
before the `try` block; on agent success the `agent:<name>:end` event is
emitted and the merged state is returned (`Except.ok true` here); on agent
failure the `except` block emits `agent:<name>:failed` and re-raises.  None
of the three `state.on_event(...)` calls is wrapped in its own handler, so
an observer exception becomes the node's result.  (The run driver
`run_workflow`, lines 703-756, calls `on_event("workflow:start")` outside
its `try` in the same unguarded way.) -/
def runAgentNodeEvents (obs : Option (String → Except String Unit))
    (agentName : String) (agentOk : Bool) : Except String Bool :=
  match emitEvent obs ("agent:" ++ agentName ++ ":start") with
  | Except.error e => Except.error e
  | Except.ok _ =>
    if agentOk then
      match emitEvent obs ("agent:" ++ agentName ++ ":end") with
      | Except.error e => Except.error e
      | Except.ok _ => Except.ok true
    else
      match emitEvent obs ("agent:" ++ agentName ++ ":failed") with
      | Except.error e => Except.error e
      | Except.ok _ => Except.error "agent raised"

/-- Python's `str.strip()` whitespace set (space, tab, newline, carriage
return, vertical tab, form feed). -/
def pyIsSpace (c : Char) : Bool :=
  c = ' ' || c = '\t' || c = '\n' || c = '\r' || c = '\x0b' || c = '\x0c'

/-- Python `s.strip()` on a line of characters. -/
def pyStrip (l : List Char) : List Char :=
  ((l.dropWhile pyIsSpace).reverse.dropWhile pyIsSpace).reverse

/-- Python `s.startswith(pre)` on characters (`pre` first). -/
def isPrefixChars : List Char → List Char → Bool
  | [], _ => true
  | _ :: _, [] => false
  | p :: ps, c :: cs => p = c && isPrefixChars ps cs

/-- Python `s.split("\n")` on characters: one piece per newline-separated
segment, with a trailing empty piece for a trailing newline and `[""]` for
the empty string. -/
def splitNl : List Char → List (List Char)
  | [] => [[]]
  | c :: cs =>
    if c = '\n' then [] :: splitNl cs
    else
      match splitNl cs with
      | [] => [[c]]
      | l :: ls => (c :: l) :: ls

/-- Python `"\n".join(lines)` on characters. -/
def joinNl : List (List Char) → List Char
  | [] => []
  | [l] => l
  | l :: ls => l ++ '\n' :: joinNl ls

/-- Python's substring test `sub in s` on characters (`s` first). -/
def hasSubstring : List Char → List Char → Bool
  | [], sub => sub.isEmpty
  | c :: cs, sub => isPrefixChars sub (c :: cs) || hasSubstring cs sub

/-- The filesystem context read by `_preserve_declare_id`: whether
`<project_root>/programs` exists, its entries in iteration order (name
paired with `is_dir()`), and the contents of existing files. -/
structure FS where
  programs_dir_exists : Bool
  program_entries : List (String × Bool)
  file_contents : List (String × String)
  deriving Repr, DecidableEq

/-- `workflow.py` lines 30-37: start from the literal glob path
`programs/*/src/lib.rs`; if the programs directory exists, the first child
directory replaces it (`for child in iterdir: if is_dir: lib_path = ...;
break`). -/
def libPathOf (fs : FS) (project_root : String) : String :=
  let fallback := project_root ++ "/programs/*/src/lib.rs"
  if fs.programs_dir_exists then
    match fs.program_entries.find? (fun e => e.2) with
    | some e => project_root ++ "/programs/" ++ e.1 ++ "/src/lib.rs"
    | none => fallback
  else fallback

/-- `workflow.py` lines 47/52: `line.strip().startswith("declare_id!")`. -/
def isDeclareLine (l : List Char) : Bool :=
  isPrefixChars "declare_id!".toList (pyStrip l)

/-- Inner loop of lines 49-55: rebuild the generated content, substituting
the existing declare line for every generated line that starts (after
stripping) with `declare_id!`. -/
def replaceDeclareLines (repl : List Char) : List (List Char) → List (List Char)
  | [] => []
  | l :: ls => (if isDeclareLine l then repl else l) :: replaceDeclareLines repl ls

/-- Outer loop of lines 46-56 over the lines of the existing `lib.rs`: the
first line that starts with `declare_id!` triggers the replacement and an
immediate return; if no line matches, the loop falls through (`none`). -/
def preserveFromExisting (new_content : List Char) : List (List Char) → Option (List Char)
  | [] => none
  | line :: rest =>
    if isDeclareLine line then
      some (joinNl (replaceDeclareLines line (splitNl new_content)))
    else preserveFromExisting new_content rest

/-- `workflow.py` lines 24-60, `_preserve_declare_id`: locate the existing
`lib.rs` (absence of the file and read failures both leave the content
unchanged; a successful read is a `file_contents` hit) and preserve its
first `declare_id!` line in the newly generated content. -/
def preserve_declare_id (fs : FS) (project_root new_content : String) : String :=
  match fs.file_contents.lookup (libPathOf fs project_root) with
  | none => new_content
  | some existing =>
    match preserveFromExisting new_content.toList (splitNl existing.toList) with
    | some out => String.mk out
    | none => new_content

/-- Python's substring test `"lib.rs" in path`. -/
def pathMentionsLibRs (path : String) : Bool :=
  hasSubstring path.toList "lib.rs".toList

/-- `workflow.py` lines 487-491 (batch mode) and 545-549 (legacy mode): the
content actually written for a path — routed through `_preserve_declare_id`
exactly when the path contains `lib.rs` (both call sites run under a
non-None `project_root`, modelled by `project_root` being present). -/
def contentToWrite (fs : FS) (project_root path content : String) : String :=
  if pathMentionsLibRs path then preserve_declare_id fs project_root content
  else content

/-- Plan-validation error taxonomy of spec section 4.1/7. -/
inductive PlanError where
  | CyclicDependency
  | DuplicateArtifact
  | OrphanStep
  deriving Repr, DecidableEq

/-- Dependency ids of a batch id (empty when the id resolves to no batch). -/
def depsOfId (batches : List FileBatch) (bid : String) : List String :=
  match findBatch batches bid with
  | some b => b.dependencies
  | none => []

/-- All batch ids and dependency ids mentioned by a batch list. -/
def idUniverse (batches : List FileBatch) : Finset String :=
  (batches.map (fun b => b.batch_id)).toFinset ∪
    (batches.map (fun b => b.dependencies)).flatten.toFinset

/-- One expansion step of the dependency closure: add the dependencies of
every id already present. -/
def closStep (batches : List FileBatch) (s : Finset String) : Finset String :=
  s ∪ s.biUnion (fun bid => (depsOfId batches bid).toFinset)

/-- `n`-fold expansion of the dependency closure of a batch, starting from
its direct dependencies. -/
def closIter (batches : List FileBatch) (b : FileBatch) : Nat → Finset String
  | 0 => b.dependencies.toFinset
  | n + 1 => closStep batches (closIter batches b n)

/-- Modelled from the spec: the repository has no `validate_plan` — spec
section 4.1 specifies it but no file under `src/` implements it.  The
dependency closure of a batch, computed by expanding direct dependencies
until the iteration provably stabilises (one step beyond the size of the id
universe). -/
def depClosure (batches : List FileBatch) (b : FileBatch) : Finset String :=
  closIter batches b ((idUniverse batches).card + 1)

/-- Modelled from the spec: `CyclicDependency` check — some batch's
dependency closure includes itself. -/
def cyclicCheck (plan : GenerationPlan) : Bool :=
  plan.batches.any (fun b => decide (b.batch_id ∈ depClosure plan.batches b))

/-- Modelled from the spec: `DuplicateArtifact` check — some artifact path
declared by one batch is declared again by a later batch. -/
def dupArtifactCheck : List FileBatch → Bool
  | [] => false
  | b :: rest =>
    b.file_paths.any (fun p => rest.any (fun b' => decide (p ∈ b'.file_paths)))
    || dupArtifactCheck rest

/-- Modelled from the spec: `OrphanStep` check — the execution steps
reference a batch id absent from `batches`, or omit a batch id present in
`batches`. -/
def orphanCheck (plan : GenerationPlan) : Bool :=
  (orderIds plan).any (fun bid => (findBatch plan.batches bid).isNone)
  || plan.batches.any (fun b => decide (¬ b.batch_id ∈ orderIds plan))

/-- Modelled from the spec: `validate_plan(plan) -> Result<(), PlanError>`
of spec section 4.1, checking the three failure conditions in the order the
spec lists them, with no side effects (pure function). -/
def validate_plan (plan : GenerationPlan) : Except PlanError Unit :=
  if cyclicCheck plan then Except.error PlanError.CyclicDependency
  else if dupArtifactCheck plan.batches then Except.error PlanError.DuplicateArtifact
  else if orphanCheck plan then Except.error PlanError.OrphanStep
  else Except.ok ()

/-- Modelled from the spec: a plan is cyclic when some batch's dependency
closure (the union of all finite expansions of its direct dependencies)
includes the batch itself. -/
def Cyclic (plan : GenerationPlan) : Prop :=
  ∃ b ∈ plan.batches, ∃ n, b.batch_id ∈ closIter plan.batches b n

/-- Modelled from the spec: some artifact path is declared by more than one
batch of the plan. -/
def DupArtifact (plan : GenerationPlan) : Prop :=
  ¬ plan.batches.Pairwise (fun b b' => ∀ p ∈ b.file_paths, ¬ p ∈ b'.file_paths)

/-- Modelled from the spec: the execution steps reference a batch id absent
from the batch set, or omit a batch id present in it. -/
def OrphanedSteps (plan : GenerationPlan) : Prop :=
  (∃ bid ∈ orderIds plan, ∀ b ∈ plan.batches, b.batch_id ≠ bid)
  ∨ (∃ b ∈ plan.batches, ¬ b.batch_id ∈ orderIds plan)

theorem dictInsert_mem {α : Type} (d : List (String × α)) (k : String) (v : α) :
    ∀ kv ∈ dictInsert d k v, kv.1 = k ∨ kv ∈ d := by
  induction d with
  | nil => intro kv h; simp [dictInsert] at h; simp [h]
  | cons hd t ih =>
    intro kv h
    simp only [dictInsert] at h
    by_cases hk : hd.1 = k
    · simp [hk] at h
      rcases h with h | h
      · left; simp [h]
      · right; simp [h]
    · simp [hk] at h
      rcases h with h | h
      · right; simp [h]
      · rcases ih kv h with h' | h'
        · left; exact h'
        · right; simp [h']

theorem foldl_safeMergeStep_guard {α : Type} (l : List (String × α)) :
    ∀ acc : List (String × α), (∀ kv ∈ acc, ¬ kv.1 ∈ control_fields) →
      ∀ kv ∈ l.foldl safeMergeStep acc, ¬ kv.1 ∈ control_fields := by
  induction l with
  | nil => intro acc hacc kv h; exact hacc kv h
  | cons hd t ih =>
    intro acc hacc kv h
    simp only [List.foldl_cons] at h
    refine ih (safeMergeStep acc hd) ?_ kv h
    intro kv' hkv'
    unfold safeMergeStep at hkv'
    by_cases hc : hd.1 ∈ control_fields
    · simp [hc] at hkv'; exact hacc kv' hkv'
    · simp [hc] at hkv'
      rcases dictInsert_mem acc hd.1 hd.2 kv' hkv' with h' | h'
      · rw [h']; exact hc
      · exact hacc kv' h'

/-- C1: for every pipeline state dump and every agent result map (including
one that explicitly sets a key named after a control field such as
`retry_count`, `user_spec`, `project_root`, `current_step`,
`validation_passed`, `build_success` or `final_artifact`), `_safe_merge`
returns a mapping containing none of the control-field keys, so every
control-field update can only happen by the explicit assignments at the
`GraphState(...)` call sites. -/
theorem safe_merge_excludes_control_fields {α : Type}
    (stateDump agentResult : List (String × α)) :
    ∀ kv ∈ safe_merge stateDump agentResult, ¬ kv.1 ∈ control_fields := by
  intro kv h
  unfold safe_merge at h
  refine foldl_safeMergeStep_guard agentResult _ ?_ kv h
  exact foldl_safeMergeStep_guard stateDump [] (by intro kv' h'; simp at h') 

theorem safe_merge_excludes_control_fields_witness :
    (("files", (1 : Nat)) ∈ safe_merge
      ([("user_spec", 0), ("files", 1)] : List (String × Nat))
      ([("retry_count", 99), ("current_step", 3)] : List (String × Nat)))
    ∧ ¬ ("files", (1 : Nat)).1 ∈ control_fields :=
  ⟨by decide,
   safe_merge_excludes_control_fields
     ([("user_spec", 0), ("files", 1)] : List (String × Nat))
     ([("retry_count", 99), ("current_step", 3)] : List (String × Nat))
     ("files", 1) (by decide)⟩

/-- C8 counterexample: an observer that raises on the start event makes the
agent node fail (`Except.error`) even though the agent itself succeeds,
whereas the same run without an observer succeeds — the observer failure
changed the run's outcome, refuting the claim that lifecycle notifications
are fire-and-forget. -/
theorem observer_failure_changes_outcome_counterexample :
    runAgentNodeEvents (some (fun _ => Except.error "observer boom"))
      "Spec Interpreter" true = Except.error "observer boom"
    ∧ runAgentNodeEvents none "Spec Interpreter" true = Except.ok true :=
  ⟨rfl, rfl⟩

/-- C8 (amended): observer callbacks are invoked without any exception
guard, so when the observer raises on the stage-start event the node fails
with exactly that error, for every agent name and regardless of whether the
agent itself would have succeeded: observer failures do affect the run's
outcome and terminate the run. -/
theorem observer_exception_propagates (f : String → Except String Unit)
    (agentName : String) (agentOk : Bool) (e : String)
    (h : f ("agent:" ++ agentName ++ ":start") = Except.error e) :
    runAgentNodeEvents (some f) agentName agentOk = Except.error e := by
  simp [runAgentNodeEvents, emitEvent, h]

theorem observer_exception_propagates_witness :
    runAgentNodeEvents (some (fun _ => Except.error "boom")) "Debugger" false
      = Except.error "boom" :=
  observer_exception_propagates (fun _ => Except.error "boom") "Debugger" false
    "boom" rfl

theorem replaceDeclareLines_eq_map (repl : List Char) (ls : List (List Char)) :
    replaceDeclareLines repl ls
      = ls.map (fun l => if isDeclareLine l then repl else l) := by
  induction ls with
  | nil => rfl
  | cons h t ih => simp only [replaceDeclareLines, List.map_cons, ih]

theorem preserveFromExisting_eq_find (new_content : List Char)
    (ls : List (List Char)) :
    preserveFromExisting new_content ls
      = (ls.find? isDeclareLine).map
          (fun line => joinNl (replaceDeclareLines line (splitNl new_content))) := by
  induction ls with
  | nil => rfl
  | cons h t ih =>
    by_cases hd : isDeclareLine h
    · simp only [preserveFromExisting, hd, if_true, List.find?_cons_of_pos _ hd,
        Option.map_some']
    · have hb : isDeclareLine h = false := by simpa using hd
      rw [List.find?_cons_of_neg _ (by simp [hb])]
      simp only [preserveFromExisting, hb, Bool.false_eq_true, if_false, ih]

/-- C10: for a path containing `lib.rs` written during batch or legacy
generation, if the existing `lib.rs` resolved under the project's programs
directory has a line whose stripped form starts with `declare_id!`, then
the written content is the generated content with every such line replaced
by the first existing `declare_id!` line; if there is no existing `lib.rs`
or it has no `declare_id!` line, the generated content is written
unchanged. -/
theorem preserve_declare_id_spec (fs : FS) (project_root path content : String)
    (hpath : pathMentionsLibRs path = true) :
    (fs.file_contents.lookup (libPathOf fs project_root) = none →
      contentToWrite fs project_root path content = content)
    ∧ (∀ existing,
        fs.file_contents.lookup (libPathOf fs project_root) = some existing →
        (((splitNl existing.toList).find? isDeclareLine = none →
            contentToWrite fs project_root path content = content)
         ∧ (∀ line, (splitNl existing.toList).find? isDeclareLine = some line →
             contentToWrite fs project_root path content =
               String.mk (joinNl ((splitNl content.toList).map
                 (fun l => if isDeclareLine l then line else l)))))) := by
  unfold contentToWrite
  rw [hpath]
  simp only [if_true]
  constructor
  · intro hnone
    unfold preserve_declare_id
    rw [hnone]
  · intro existing hsome
    constructor
    · intro hfind
      unfold preserve_declare_id
      rw [hsome]
      simp only [preserveFromExisting_eq_find, hfind, Option.map_none']
    · intro line hfind
      unfold preserve_declare_id
      rw [hsome]
      simp only [preserveFromExisting_eq_find, hfind, Option.map_some',
        replaceDeclareLines_eq_map]

theorem preserve_declare_id_spec_witness :
    pathMentionsLibRs "programs/p/src/lib.rs" = true
    ∧ contentToWrite
        ⟨true, [("p", true)],
         [("root/programs/p/src/lib.rs", "use a;\ndeclare_id!(\"OLD\");")]⟩
        "root" "programs/p/src/lib.rs" "declare_id!(\"NEW\");\npub mod m;"
        = "declare_id!(\"OLD\");\npub mod m;" := by
  refine ⟨by decide, ?_⟩
  have h := ((preserve_declare_id_spec
      ⟨true, [("p", true)],
       [("root/programs/p/src/lib.rs", "use a;\ndeclare_id!(\"OLD\");")]⟩
      "root" "programs/p/src/lib.rs" "declare_id!(\"NEW\");\npub mod m;"
      (by decide)).2 "use a;\ndeclare_id!(\"OLD\");" (by decide)).2
      "declare_id!(\"OLD\");".toList (by decide)
  rw [h]
  decide

theorem routeBatches_ne_debugger (r : String) : routeBatches r ≠ Node.debugger := by
  unfold routeBatches
  split <;> decide

theorem routeValidator_eq_debugger {r : String}
    (h : routeValidator r = Node.debugger) : r = "debugger" := by
  unfold routeValidator at h
  by_cases h1 : r = "build"
  · rw [if_pos h1] at h; exact absurd h (by decide)
  · rw [if_neg h1] at h
    by_cases h2 : r = "debugger"
    · exact h2
    · rw [if_neg h2] at h; exact absurd h (by decide)

theorem routeBuilder_eq_debugger {r : String}
    (h : routeBuilder r = Node.debugger) : r = "debugger" := by
  unfold routeBuilder at h
  by_cases h1 : r = "end"
  · rw [if_pos h1] at h; exact absurd h (by decide)
  · rw [if_neg h1] at h
    by_cases h2 : r = "debugger"
    · exact h2
    · rw [if_neg h2] at h; exact absurd h (by decide)

theorem should_build_eq_debugger {s : GraphState}
    (h : should_proceed_to_build s = "debugger") :
    s.retry_count < MAX_RETRIES := by
  unfold should_proceed_to_build at h
  split at h
  · exact absurd h (by decide)
  · split at h
    · assumption
    · exact absurd h (by decide)

theorem should_end_eq_debugger {s : GraphState}
    (h : should_proceed_to_end s = "debugger") :
    s.retry_count < MAX_RETRIES := by
  unfold should_proceed_to_end at h
  split at h
  · exact absurd h (by decide)
  · split at h
    · assumption
    · exact absurd h (by decide)

theorem step_into_debugger {c c' : Node × GraphState} (h : Step c c')
    (hd : c'.1 = Node.debugger) : c'.2.retry_count < MAX_RETRIES := by
  cases h with
  | interpret s s' hr => simp at hd
  | planProject s s' hr => simp at hd
  | planFiles s s' hr => simp at hd
  | processBatch s s' hr => exact absurd hd (routeBatches_ne_debugger _)
  | validate s s' hr => exact should_build_eq_debugger (routeValidator_eq_debugger hd)
  | build s s' hr => exact should_end_eq_debugger (routeBuilder_eq_debugger hd)
  | repair s s' hr => simp at hd

theorem step_retry {c c' : Node × GraphState} (h : Step c c') :
    c'.2.retry_count = c.2.retry_count + (if c.1 = Node.debugger then 1 else 0) := by
  cases h with
  | interpret s s' hr => simpa using hr
  | planProject s s' hr => simpa using hr
  | planFiles s s' hr => simpa using hr
  | processBatch s s' hr => simpa using hr
  | validate s s' hr => simpa using hr
  | build s s' hr => simpa using hr
  | repair s s' hr => simpa using hr

theorem countDebugger_cons (c : Node × GraphState) (l : List (Node × GraphState)) :
    countDebugger (c :: l) = (if c.1 = Node.debugger then 1 else 0) + countDebugger l := by
  by_cases hc : c.1 = Node.debugger
  · simp [countDebugger, List.filter_cons, hc, Nat.add_comm]
  · simp [countDebugger, List.filter_cons, hc]

theorem chain_count_bound :
    ∀ (l : List (Node × GraphState)) (c : Node × GraphState),
      chainStep (c :: l) →
      (c.1 = Node.debugger → c.2.retry_count < MAX_RETRIES) →
      countDebugger (c :: l) + c.2.retry_count ≤ MAX_RETRIES
        ∨ countDebugger (c :: l) = 0 := by
  intro l
  induction l with
  | nil =>
    intro c _ hgood
    by_cases hc : c.1 = Node.debugger
    · left
      have := hgood hc
      simp only [countDebugger_cons, hc, if_pos]
      simp [countDebugger]
      omega
    · right
      simp [countDebugger_cons, hc, countDebugger]
  | cons c1 t ih =>
    intro c hchain hgood
    simp only [chainStep] at hchain
    obtain ⟨hstep, hchain'⟩ := hchain
    have hgood1 : c1.1 = Node.debugger → c1.2.retry_count < MAX_RETRIES :=
      fun h => step_into_debugger hstep h
    have ihv := ih c1 hchain' hgood1
    have hr := step_retry hstep
    rw [countDebugger_cons]
    by_cases hc : c.1 = Node.debugger
    · have hlt := hgood hc
      rw [if_pos hc] at hr ⊢
      omega
    · rw [if_neg hc] at hr ⊢
      omega

theorem chain_retry_eq :
    ∀ (l : List (Node × GraphState)) (c : Node × GraphState),
      chainStep (c :: l) →
      (l.getLastD c).2.retry_count
        = c.2.retry_count + countDebugger ((c :: l).dropLast) := by
  intro l
  induction l with
  | nil => intro c _; simp [countDebugger]
  | cons c1 t ih =>
    intro c hchain
    simp only [chainStep] at hchain
    obtain ⟨hstep, hchain'⟩ := hchain
    have ihv := ih c1 hchain'
    have hr := step_retry hstep
    have hdl : (c :: c1 :: t).dropLast = c :: (c1 :: t).dropLast := rfl
    rw [List.getLastD_cons, ihv, hdl, countDebugger_cons]
    by_cases hc : c.1 = Node.debugger
    · rw [if_pos hc] at hr ⊢; omega
    · rw [if_neg hc] at hr ⊢; omega

theorem should_build_abort {s : GraphState} (hv : s.validation_passed = false)
    (hr : MAX_RETRIES ≤ s.retry_count) : should_proceed_to_build s = "abort" := by
  unfold should_proceed_to_build
  rw [hv]
  simp [Nat.not_lt.mpr hr]

theorem should_end_abort {s : GraphState} (hb : s.build_success = false)
    (hr : MAX_RETRIES ≤ s.retry_count) : should_proceed_to_end s = "abort" := by
  unfold should_proceed_to_end
  rw [hb]
  simp [Nat.not_lt.mpr hr]

/-- C2: across any run of the workflow state machine started at the entry
node with `retry_count = 0`, the repair node (`debugger`) is entered at most
`MAX_RETRIES` times; and when validation (resp. build) fails while
`retry_count` has already reached `MAX_RETRIES`, the conditional edge
routes to the terminal `abort` node, not to `debugger`. -/
theorem retry_budget :
    (∀ (s0 : GraphState) (tr : List (Node × GraphState)),
        s0.retry_count = 0 →
        chainStep ((Node.spec_interpreter, s0) :: tr) →
        countDebugger ((Node.spec_interpreter, s0) :: tr) ≤ MAX_RETRIES)
    ∧ (∀ (s s' : GraphState) (n : Node),
        Step (Node.static_validator, s) (n, s') →
        s'.validation_passed = false → MAX_RETRIES ≤ s'.retry_count →
        n = Node.abort)
    ∧ (∀ (s s' : GraphState) (n : Node),
        Step (Node.build_contract, s) (n, s') →
        s'.build_success = false → MAX_RETRIES ≤ s'.retry_count →
        n = Node.abort) := by
  refine ⟨?_, ?_, ?_⟩
  · intro s0 tr h0 hchain
    have hgood : (Node.spec_interpreter, s0).1 = Node.debugger →
        (Node.spec_interpreter, s0).2.retry_count < MAX_RETRIES := by
      intro h; simp at h
    have := chain_count_bound tr (Node.spec_interpreter, s0) hchain hgood
    simp only [h0] at this
    omega
  · intro s s' n hstep hv hr
    cases hstep with
    | validate s s2 hrc =>
      rw [should_build_abort hv hr]
      decide
  · intro s s' n hstep hb hr
    cases hstep with
    | build s s2 hrc =>
      rw [should_end_abort hb hr]
      decide

theorem retry_budget_witness :
    countDebugger [(Node.spec_interpreter, ({} : GraphState)),
        (Node.project_planner, ({} : GraphState))] ≤ MAX_RETRIES :=
  retry_budget.1 {} [(Node.project_planner, {})] rfl
    ⟨Step.interpret {} {} rfl, trivial⟩

/-- C7: along any run of the state machine, the final `retry_count` equals
the initial one plus the number of repair-node (`debugger`) executions (the
steps leaving a `debugger` configuration), so the counter is incremented
exactly once per repair invocation and nowhere else — in particular a run
that never reaches the repair node keeps `retry_count` unchanged; and the
transition out of the repair node goes unconditionally to `build_contract`,
skipping re-validation. -/
theorem retry_incremented_only_by_repair :
    (∀ (c0 : Node × GraphState) (tr : List (Node × GraphState)),
        chainStep (c0 :: tr) →
        (tr.getLastD c0).2.retry_count
          = c0.2.retry_count + countDebugger ((c0 :: tr).dropLast))
    ∧ (∀ c c' : Node × GraphState, Step c c' → c.1 = Node.debugger →
        c'.1 = Node.build_contract)
    ∧ (∀ (c0 : Node × GraphState) (tr : List (Node × GraphState)),
        chainStep (c0 :: tr) →
        (∀ c ∈ c0 :: tr, c.1 ≠ Node.debugger) →
        (tr.getLastD c0).2.retry_count = c0.2.retry_count) := by
  refine ⟨?_, ?_, ?_⟩
  · intro c0 tr hchain
    exact chain_retry_eq tr c0 hchain
  · intro c c' hstep hc
    cases hstep with
    | interpret s s' hr => simp at hc
    | planProject s s' hr => simp at hc
    | planFiles s s' hr => simp at hc
    | processBatch s s' hr => simp at hc
    | validate s s' hr => simp at hc
    | build s s' hr => simp at hc
    | repair s s' hr => rfl
  · intro c0 tr hchain hnone
    have h := chain_retry_eq tr c0 hchain
    have hz : countDebugger ((c0 :: tr).dropLast) = 0 := by
      unfold countDebugger
      rw [List.length_eq_zero]
      rw [List.filter_eq_nil_iff]
      intro c hc
      have : c ∈ c0 :: tr := List.dropLast_subset _ hc
      simp [hnone c this]
    rw [h, hz]
    rfl

theorem retry_incremented_only_by_repair_witness :
    ([(Node.build_contract, ({ retry_count := 1 } : GraphState))].getLastD
        (Node.debugger, ({} : GraphState))).2.retry_count
      = ((Node.debugger, ({} : GraphState)) : Node × GraphState).2.retry_count
        + countDebugger ([(Node.debugger, ({} : GraphState)),
            (Node.build_contract, ({ retry_count := 1 } : GraphState))].dropLast) :=
  retry_incremented_only_by_repair.1 (Node.debugger, {})
    [(Node.build_contract, { retry_count := 1 })]
    ⟨Step.repair {} { retry_count := 1 } rfl, trivial⟩

theorem findInStep_eq_find (batches : List FileBatch) (completed pending : List String) :
    ∀ step : List String,
      findInStep batches completed pending step
        = (step.filterMap (findBatch batches)).find?
            (fun b => depsSatisfied batches completed b && hasPendingFiles pending b) := by
  intro step
  induction step with
  | nil => rfl
  | cons bid rest ih =>
    cases hfb : findBatch batches bid with
    | none => simp only [findInStep, hfb, List.filterMap_cons, ih]
    | some b =>
      simp only [findInStep, hfb, List.filterMap_cons]
      by_cases hp : (depsSatisfied batches completed b && hasPendingFiles pending b) = true
      · rw [if_pos hp]
        exact (@List.find?_cons_of_pos _
          (fun b => depsSatisfied batches completed b && hasPendingFiles pending b)
          b (List.filterMap (findBatch batches) rest) hp).symm
      · rw [if_neg hp,
          @List.find?_cons_of_neg _
            (fun b => depsSatisfied batches completed b && hasPendingFiles pending b)
            b (List.filterMap (findBatch batches) rest) hp]
        exact ih

theorem nextReadyBatchAux_eq (batches : List FileBatch) (completed pending : List String) :
    ∀ order : List (List String),
      nextReadyBatchAux batches completed pending order
        = (order.flatten.filterMap (findBatch batches)).find?
            (fun b => depsSatisfied batches completed b && hasPendingFiles pending b) := by
  intro order
  induction order with
  | nil => rfl
  | cons step rest ih =>
    simp only [nextReadyBatchAux, List.flatten_cons, List.filterMap_append,
      List.find?_append, findInStep_eq_find]
    cases h1 : (step.filterMap (findBatch batches)).find?
        (fun b => depsSatisfied batches completed b && hasPendingFiles pending b) with
    | some b => simp
    | none => simp [ih]

theorem depsSatisfied_iff (batches : List FileBatch) (completed : List String)
    (b : FileBatch) :
    depsSatisfied batches completed b = true ↔
      ∀ d ∈ b.dependencies, ∀ db, findBatch batches d = some db →
        ∀ q ∈ db.file_paths, q ∈ completed := by
  unfold depsSatisfied
  rw [List.all_eq_true]
  constructor
  · intro h d hd db hdb q hq
    have hh := h d hd
    rw [hdb, List.all_eq_true] at hh
    simpa using hh q hq
  · intro h d hd
    cases hdb : findBatch batches d with
    | none => rfl
    | some db =>
      rw [List.all_eq_true]
      intro q hq
      simpa using h d hd db hdb q hq

theorem hasPendingFiles_iff (pending : List String) (b : FileBatch) :
    hasPendingFiles pending b = true ↔ ∃ q ∈ b.file_paths, q ∈ pending := by
  simp [hasPendingFiles, List.any_eq_true]

/-- C4: the scheduler's selection equals first-match search over the
execution steps flattened in declared order (earlier steps and earlier
in-step entries win ties, unresolved batch ids are skipped), where a batch
is ready exactly when every one of its dependency batches has all of its
artifact paths completed and at least one of the batch's own artifact paths
is still pending. -/
theorem next_ready_batch_spec (plan : GenerationPlan) (completed pending : List String) :
    nextReadyBatch plan completed pending
      = ((orderIds plan).filterMap (findBatch plan.batches)).find?
          (fun b => depsSatisfied plan.batches completed b && hasPendingFiles pending b)
    ∧ (∀ b : FileBatch, depsSatisfied plan.batches completed b = true ↔
        ∀ d ∈ b.dependencies, ∀ db, findBatch plan.batches d = some db →
          ∀ q ∈ db.file_paths, q ∈ completed)
    ∧ (∀ b : FileBatch, hasPendingFiles pending b = true ↔
        ∃ q ∈ b.file_paths, q ∈ pending) :=
  ⟨nextReadyBatchAux_eq plan.batches completed pending plan.generation_order,
   fun b => depsSatisfied_iff plan.batches completed b,
   fun b => hasPendingFiles_iff pending b⟩

theorem next_ready_batch_spec_witness :
    nextReadyBatch ⟨[⟨"A", ["a"], "", [], 0⟩, ⟨"C", ["c"], "", ["A"], 0⟩], 2,
        [["A"], ["C"]]⟩ [] ["a", "c"]
      = ((orderIds ⟨[⟨"A", ["a"], "", [], 0⟩, ⟨"C", ["c"], "", ["A"], 0⟩], 2,
          [["A"], ["C"]]⟩).filterMap
            (findBatch [⟨"A", ["a"], "", [], 0⟩, ⟨"C", ["c"], "", ["A"], 0⟩])).find?
          (fun b => depsSatisfied [⟨"A", ["a"], "", [], 0⟩, ⟨"C", ["c"], "", ["A"], 0⟩]
              [] b && hasPendingFiles ["a", "c"] b) :=
  (next_ready_batch_spec ⟨[⟨"A", ["a"], "", [], 0⟩, ⟨"C", ["c"], "", ["A"], 0⟩], 2,
      [["A"], ["C"]]⟩ [] ["a", "c"]).1

/-- C3: a stalled plan is fatal and surfaced, never silently looped on and
never silently treated as plan completion.  When `batch_processor_node` runs
with pending artifacts but no ready batch, its no-ready branch (lines
451-459) raises `TypeError` (the `GraphState` constructor receives
`pending_files`, `user_spec`, `retry_count`, `project_root`, `on_event` and
`test_mode` twice: once via `**state.model_dump()` and once explicitly), so
the node errors instead of returning a state; the surrounding `except`
re-raises, ending the run.  The caller's router `has_more_batches`
distinguishes the two `None`-adjacent situations: a finished plan (pending
empty) routes "done" and exits the loop without re-entering the node, while
a stalled plan (pending non-empty) routes "continue" into the erroring
node. -/
theorem scheduler_stall_is_fatal (s : GraphState) (plan : GenerationPlan)
    (produce : FileBatch → List (String × String))
    (hplan : s.generation_plan = some plan)
    (hnonempty : plan.batches ≠ [])
    (hpending : s.pending_files ≠ [])
    (hstall : nextReadyBatch plan (s.generated_files.map Prod.fst)
        (s.pending_files.map Prod.fst) = none) :
    (∃ e, batch_processor_step s produce = Except.error e)
    ∧ has_more_batches s = "continue"
    ∧ (∀ s' : GraphState, s'.generation_plan = some plan →
        s'.pending_files = [] → has_more_batches s' = "done") := by
  have hne : plan.batches.isEmpty = false := by
    rw [List.isEmpty_eq_false]
    exact hnonempty
  have hpe : s.pending_files.isEmpty = false := by
    rw [List.isEmpty_eq_false]
    exact hpending
  refine ⟨?_, ?_, ?_⟩
  · unfold batch_processor_step
    rw [hplan]
    simp only [hne, Bool.false_eq_true, if_false, hstall]
    exact ⟨_, rfl⟩
  · unfold has_more_batches
    rw [hplan, hpe]
    rfl
  · intro s' hplan' hpend'
    unfold has_more_batches
    rw [hplan', hpend']
    rfl

theorem scheduler_stall_is_fatal_witness :
    ∃ e, batch_processor_step
        ⟨0, false, false,
         some ⟨[⟨"A", ["a"], "", ["B"], 0⟩, ⟨"B", ["b"], "", ["A"], 0⟩], 2,
           [["A", "B"]]⟩,
         [("a", ""), ("b", "")], []⟩ (fun _ => []) = Except.error e :=
  (scheduler_stall_is_fatal
    ⟨0, false, false,
     some ⟨[⟨"A", ["a"], "", ["B"], 0⟩, ⟨"B", ["b"], "", ["A"], 0⟩], 2,
       [["A", "B"]]⟩,
     [("a", ""), ("b", "")], []⟩
    ⟨[⟨"A", ["a"], "", ["B"], 0⟩, ⟨"B", ["b"], "", ["A"], 0⟩], 2, [["A", "B"]]⟩
    (fun _ => []) rfl (by decide) (by decide) (by decide)).1

theorem lookup_dictInsert (d : List (String × String)) (k : String) (v : String)
    (q : String) :
    (dictInsert d k v).lookup q = if q = k then some v else d.lookup q := by
  induction d with
  | nil =>
    by_cases hq : q = k
    · simp [dictInsert, List.lookup, hq]
    · simp [dictInsert, List.lookup, hq, beq_eq_false_iff_ne.mpr hq]
  | cons kv t ih =>
    obtain ⟨a, b⟩ := kv
    simp only [dictInsert]
    by_cases hak : a = k
    · rw [if_pos hak]
      by_cases hq : q = k
      · simp [List.lookup, hq]
      · simp [List.lookup, hq, beq_eq_false_iff_ne.mpr hq, hak,
          beq_eq_false_iff_ne.mpr (hak ▸ hq)]
    · rw [if_neg hak]
      by_cases hqa : q = a
      · have hqk : ¬ q = k := by rw [hqa]; exact hak
        simp [List.lookup, hqa, hqk, hak]
      · simp [List.lookup, beq_eq_false_iff_ne.mpr hqa, ih]

theorem lookup_not_mem_keys {l : List (String × String)} {q : String}
    (h : ¬ q ∈ l.map Prod.fst) : l.lookup q = none := by
  induction l with
  | nil => rfl
  | cons kv t ih =>
    obtain ⟨a, b⟩ := kv
    simp only [List.map_cons, List.mem_cons] at h
    push_neg at h
    simp [List.lookup, beq_eq_false_iff_ne.mpr h.1, ih h.2]

theorem mem_keys_of_lookup_some {l : List (String × String)} {q v : String}
    (h : l.lookup q = some v) : q ∈ l.map Prod.fst := by
  induction l with
  | nil => simp [List.lookup] at h
  | cons kv t ih =>
    obtain ⟨a, b⟩ := kv
    simp only [List.lookup] at h
    by_cases hqa : q = a
    · simp [hqa]
    · rw [beq_eq_false_iff_ne.mpr hqa] at h
      simp [ih h]

theorem lookup_filterKey (pred : String → Bool) (l : List (String × String))
    (q : String) :
    (l.filter (fun kv => pred kv.1)).lookup q
      = if pred q then l.lookup q else none := by
  induction l with
  | nil => simp [List.lookup]
  | cons kv t ih =>
    obtain ⟨a, b⟩ := kv
    rw [List.filter_cons]
    by_cases hp : pred (a, b).1
    · rw [if_pos hp]
      by_cases hq : q = a
      · subst hq
        simp only at hp
        simp [List.lookup, hp]
      · simp [List.lookup, beq_eq_false_iff_ne.mpr hq, ih]
    · rw [if_neg hp]
      simp only at hp
      by_cases hq : q = a
      · subst hq
        have hpq : pred q = false := by simpa using hp
        simp [ih, hpq, List.lookup]
      · rw [ih]
        by_cases hpq : pred q
        · simp [hpq, List.lookup, beq_eq_false_iff_ne.mpr hq]
        · simp [hpq]

theorem lookup_dictUpdate (u : List (String × String)) :
    ∀ d : List (String × String), (u.map Prod.fst).Nodup → ∀ q,
      (dictUpdate d u).lookup q
        = match u.lookup q with
          | some v => some v
          | none => d.lookup q := by
  induction u with
  | nil => intro d _ q; rfl
  | cons kv t ih =>
    intro d hnd q
    obtain ⟨a, b⟩ := kv
    simp only [List.map_cons, List.nodup_cons] at hnd
    have hstep : dictUpdate d ((a, b) :: t) = dictUpdate (dictInsert d a b) t := rfl
    rw [hstep, ih (dictInsert d a b) hnd.2 q]
    by_cases hq : q = a
    · subst hq
      have ht : t.lookup q = none := lookup_not_mem_keys (by simpa using hnd.1)
      simp [ht, List.lookup, lookup_dictInsert]
    · simp only [List.lookup, beq_eq_false_iff_ne.mpr hq]
      cases t.lookup q with
      | some v => rfl
      | none => simp [lookup_dictInsert, hq]

theorem filterToBatch_keys_nodup (batch : FileBatch)
    (produced : List (String × String)) (hnd : (produced.map Prod.fst).Nodup) :
    ((filterToBatch batch produced).map Prod.fst).Nodup :=
  hnd.sublist (List.Sublist.map Prod.fst (List.filter_sublist produced))

theorem filterToBatch_keys_sub (batch : FileBatch)
    (produced : List (String × String)) :
    ∀ q, q ∈ (filterToBatch batch produced).map Prod.fst → q ∈ batch.file_paths := by
  intro q hq
  rw [List.mem_map] at hq
  obtain ⟨kv, hkv, hq⟩ := hq
  unfold filterToBatch at hkv
  rw [List.mem_filter] at hkv
  rw [← hq]
  simpa using hkv.2

/-- C6: when a batch result is recorded, only paths the batch itself
declared are moved from pending to completed, and a declared produced path
ends up completed with exactly its produced content; any path present in
the produced map but not declared by the batch is ignored — its completed
and pending entries are untouched.  The operation returns new dictionaries
built from the inputs; the inputs are never mutated (the embedding, like
the Python code's dict comprehensions, constructs fresh maps). -/
theorem record_batch_result_spec (generated pending : List (String × String))
    (batch : FileBatch) (produced : List (String × String))
    (hnd : (produced.map Prod.fst).Nodup) :
    (∀ q, ¬ q ∈ batch.file_paths →
      ((recordBatchResult generated pending batch produced).1.lookup q
          = generated.lookup q
       ∧ (recordBatchResult generated pending batch produced).2.lookup q
          = pending.lookup q))
    ∧ (∀ q v, q ∈ batch.file_paths → produced.lookup q = some v →
      ((recordBatchResult generated pending batch produced).1.lookup q = some v
       ∧ (recordBatchResult generated pending batch produced).2.lookup q = none)) := by
  have hnfnd := filterToBatch_keys_nodup batch produced hnd
  have h1 : (recordBatchResult generated pending batch produced).1
      = dictUpdate generated (filterToBatch batch produced) := rfl
  have h2 : (recordBatchResult generated pending batch produced).2
      = pending.filter
          (fun kv => decide (¬ kv.1 ∈ (filterToBatch batch produced).map Prod.fst)) := rfl
  constructor
  · intro q hq
    have hnfq : (filterToBatch batch produced).lookup q = none := by
      unfold filterToBatch
      rw [lookup_filterKey (fun k => decide (k ∈ batch.file_paths))]
      simp [hq]
    constructor
    · rw [h1, lookup_dictUpdate (filterToBatch batch produced) generated hnfnd q, hnfq]
    · rw [h2, lookup_filterKey
        (fun k => decide (¬ k ∈ (filterToBatch batch produced).map Prod.fst))]
      have hq' : ¬ q ∈ (filterToBatch batch produced).map Prod.fst :=
        fun hmem => hq (filterToBatch_keys_sub batch produced q hmem)
      simp [hq']
  · intro q v hq hv
    have hnf : (filterToBatch batch produced).lookup q = some v := by
      unfold filterToBatch
      rw [lookup_filterKey (fun k => decide (k ∈ batch.file_paths))]
      simp [hq, hv]
    constructor
    · rw [h1, lookup_dictUpdate (filterToBatch batch produced) generated hnfnd q, hnf]
    · rw [h2, lookup_filterKey
        (fun k => decide (¬ k ∈ (filterToBatch batch produced).map Prod.fst))]
      have hmem := mem_keys_of_lookup_some hnf
      simp [hmem]

theorem record_batch_result_spec_witness :
    ((recordBatchResult [] [("a", ""), ("c", "")] ⟨"A", ["a"], "", [], 0⟩
        [("a", "x"), ("z", "y")]).1.lookup "a" = some "x"
     ∧ (recordBatchResult [] [("a", ""), ("c", "")] ⟨"A", ["a"], "", [], 0⟩
        [("a", "x"), ("z", "y")]).2.lookup "a" = none) :=
  (record_batch_result_spec [] [("a", ""), ("c", "")] ⟨"A", ["a"], "", [], 0⟩
      [("a", "x"), ("z", "y")] (by decide)).2 "a" "x" (by decide) (by decide)

theorem mem_allPaths (plan : GenerationPlan) (p : String) :
    p ∈ allPaths plan ↔ ∃ b ∈ plan.batches, p ∈ b.file_paths := by
  unfold allPaths
  rw [List.mem_flatten]
  constructor
  · rintro ⟨s, hs, hp⟩
    rw [List.mem_map] at hs
    obtain ⟨b, hb, rfl⟩ := hs
    exact ⟨b, hb, hp⟩
  · rintro ⟨b, hb, hp⟩
    exact ⟨b.file_paths, List.mem_map.mpr ⟨b, hb, rfl⟩, hp⟩

theorem findBatch_self (batches : List FileBatch)
    (hids : (batches.map (fun x => x.batch_id)).Nodup) :
    ∀ b ∈ batches, findBatch batches b.batch_id = some b := by
  induction batches with
  | nil => intro b hb; simp at hb
  | cons h t ih =>
    intro b hb
    rw [List.map_cons, List.nodup_cons] at hids
    rcases List.mem_cons.mp hb with rfl | hbt
    · unfold findBatch
      exact List.find?_cons_of_pos _ (by simp)
    · have hne : ¬ (h.batch_id == b.batch_id) = true := by
        simp only [beq_iff_eq]
        intro heq
        exact hids.1 (heq ▸ List.mem_map.mpr ⟨b, hbt, rfl⟩)
      unfold findBatch
      rw [@List.find?_cons_of_neg _ (fun x => x.batch_id == b.batch_id) h t hne]
      exact ih hids.2 b hbt

theorem findBatch_mem {batches : List FileBatch} {bid : String} {b : FileBatch}
    (h : findBatch batches bid = some b) : b ∈ batches :=
  List.mem_of_find?_eq_some h

theorem paths_disjoint (batches : List FileBatch)
    (hnd : ((batches.map (fun b => b.file_paths)).flatten).Nodup) :
    ∀ b ∈ batches, ∀ b' ∈ batches, b.batch_id ≠ b'.batch_id →
      ∀ p ∈ b.file_paths, ¬ p ∈ b'.file_paths := by
  induction batches with
  | nil => intro b hb; simp at hb
  | cons h t ih =>
    rw [List.map_cons, List.flatten_cons, List.nodup_append] at hnd
    obtain ⟨hh, ht, hdisj⟩ := hnd
    intro b hb b' hb' hne p hp hp'
    rcases List.mem_cons.mp hb with rfl | hbt
    · rcases List.mem_cons.mp hb' with rfl | hbt'
      · exact hne rfl
      · exact hdisj hp (List.mem_flatten.mpr
          ⟨b'.file_paths, List.mem_map.mpr ⟨b', hbt', rfl⟩, hp'⟩)
    · rcases List.mem_cons.mp hb' with rfl | hbt'
      · exact hdisj hp' (List.mem_flatten.mpr
          ⟨b.file_paths, List.mem_map.mpr ⟨b, hbt, rfl⟩, hp⟩)
      · exact ih ht b hbt b' hbt' hne p hp hp'

theorem any_congr_mem {α : Type} {l : List α} {p q : α → Bool}
    (h : ∀ a ∈ l, p a = q a) : l.any p = l.any q := by
  induction l with
  | nil => rfl
  | cons hd t ih =>
    simp only [List.any_cons]
    rw [h hd (List.mem_cons_self hd t), ih (fun a ha => h a (List.mem_cons_of_mem hd ha))]

theorem findInStep_none {batches : List FileBatch} {completed pending : List String}
    {step : List String} (h : findInStep batches completed pending step = none) :
    ∀ bid ∈ step, ∀ b, findBatch batches bid = some b →
      ¬ (depsSatisfied batches completed b && hasPendingFiles pending b) = true := by
  rw [findInStep_eq_find] at h
  rw [List.find?_eq_none] at h
  intro bid hbid b hb
  exact h b (List.mem_filterMap.mpr ⟨bid, hbid, hb⟩)

theorem nextReady_some_facts {plan : GenerationPlan} {completed pending : List String}
    {b : FileBatch} (h : nextReadyBatch plan completed pending = some b) :
    b ∈ plan.batches ∧ depsSatisfied plan.batches completed b = true
      ∧ hasPendingFiles pending b = true := by
  unfold nextReadyBatch at h
  rw [nextReadyBatchAux_eq] at h
  have hmem := List.mem_of_find?_eq_some h
  have hpred := List.find?_some h
  rw [List.mem_filterMap] at hmem
  obtain ⟨bid, _, hb⟩ := hmem
  rw [Bool.and_eq_true] at hpred
  exact ⟨findBatch_mem hb, hpred.1, hpred.2⟩

theorem layeredCheck_cons {batches : List FileBatch} {prev : List String}
    {step : List String} {rest : List (List String)}
    (h : layeredCheck batches prev (step :: rest) = true) :
    (∀ bid ∈ step, ∀ b, findBatch batches bid = some b →
      ∀ d ∈ b.dependencies, d ∈ prev)
    ∧ layeredCheck batches (prev ++ step) rest = true := by
  rw [layeredCheck, Bool.and_eq_true] at h
  refine ⟨?_, h.2⟩
  intro bid hbid b hb d hd
  have h1 := (List.all_eq_true.mp h.1) bid hbid
  rw [hb, List.all_eq_true] at h1
  simpa using h1 d hd

theorem progress_aux (batches : List FileBatch) (completed pending : List String)
    (hatomic : ∀ b ∈ batches,
      (∀ p ∈ b.file_paths, p ∈ pending) ∨ (∀ p ∈ b.file_paths, p ∈ completed))
    (hnonempty : ∀ b ∈ batches, b.file_paths ≠ []) :
    ∀ (order : List (List String)) (prev : List String),
      layeredCheck batches prev order = true →
      (∀ bid ∈ prev, ∀ b, findBatch batches bid = some b →
        ∀ p ∈ b.file_paths, p ∈ completed) →
      (∃ bid ∈ order.flatten, ∃ b, findBatch batches bid = some b
        ∧ hasPendingFiles pending b = true) →
      (nextReadyBatchAux batches completed pending order).isSome = true := by
  intro order
  induction order with
  | nil =>
    intro prev _ _ hex
    obtain ⟨bid, hbid, _⟩ := hex
    simp at hbid
  | cons step rest ih =>
    intro prev hlay hprev hex
    obtain ⟨hlay1, hlay2⟩ := layeredCheck_cons hlay
    cases hfs : findInStep batches completed pending step with
    | some b => simp [nextReadyBatchAux, hfs]
    | none =>
      have hnofind := findInStep_none hfs
      have hdeps : ∀ bid ∈ step, ∀ b, findBatch batches bid = some b →
          depsSatisfied batches completed b = true := by
        intro bid hbid b hb
        rw [depsSatisfied_iff]
        intro d hd db hdb q hq
        exact hprev d (hlay1 bid hbid b hb d hd) db hdb q hq
      have hstep_np : ∀ bid ∈ step, ∀ b, findBatch batches bid = some b →
          hasPendingFiles pending b = false := by
        intro bid hbid b hb
        have hnp := hnofind bid hbid b hb
        rw [Bool.and_eq_true, not_and] at hnp
        have := hnp (hdeps bid hbid b hb)
        exact Bool.eq_false_iff.mpr this
      have hstepdone : ∀ bid ∈ step, ∀ b, findBatch batches bid = some b →
          ∀ p ∈ b.file_paths, p ∈ completed := by
        intro bid hbid b hb p hp
        rcases hatomic b (findBatch_mem hb) with hall | hall
        · exfalso
          obtain ⟨p0, hp0⟩ := List.exists_mem_of_ne_nil b.file_paths
            (hnonempty b (findBatch_mem hb))
          have : hasPendingFiles pending b = true := by
            rw [hasPendingFiles_iff]
            exact ⟨p0, hp0, hall p0 hp0⟩
          rw [hstep_np bid hbid b hb] at this
          exact Bool.false_ne_true this
        · exact hall p hp
      have hprev' : ∀ bid ∈ prev ++ step, ∀ b, findBatch batches bid = some b →
          ∀ p ∈ b.file_paths, p ∈ completed := by
        intro bid hbid b hb p hp
        rcases List.mem_append.mp hbid with hbid | hbid
        · exact hprev bid hbid b hb p hp
        · exact hstepdone bid hbid b hb p hp
      have hex' : ∃ bid ∈ rest.flatten, ∃ b, findBatch batches bid = some b
          ∧ hasPendingFiles pending b = true := by
        obtain ⟨bid, hbid, b, hb, hbp⟩ := hex
        rw [List.flatten_cons, List.mem_append] at hbid
        rcases hbid with hbid | hbid
        · rw [hstep_np bid hbid b hb] at hbp
          exact absurd hbp Bool.false_ne_true
        · exact ⟨bid, hbid, b, hb, hbp⟩
      have := ih (prev ++ step) hlay2 hprev' hex'
      simpa [nextReadyBatchAux, hfs] using this

theorem sched_inv_step (plan : GenerationPlan) (completed pending : List String)
    (b : FileBatch) (nfk : List String)
    (hinv : SchedInv plan completed pending)
    (hb : b ∈ plan.batches)
    (hids : (plan.batches.map (fun x => x.batch_id)).Nodup)
    (hpaths : (allPaths plan).Nodup)
    (hnfk : ∀ q, q ∈ nfk ↔ q ∈ b.file_paths) :
    SchedInv plan (completed ++ nfk)
      (pending.filter (fun q => decide (¬ q ∈ nfk))) := by
  refine ⟨?_, ?_, ?_⟩
  · intro p hp
    exact hinv.pend_sub p (List.mem_filter.mp hp).1
  · intro p hpall
    rw [List.mem_append, List.mem_filter]
    by_cases hpn : p ∈ nfk
    · constructor
      · intro _ hcon
        simp [hpn] at hcon
      · intro _
        exact Or.inr hpn
    · constructor
      · intro h hcon
        rcases h with h | h
        · exact (hinv.part p hpall).mp h hcon.1
        · exact hpn h
      · intro h
        left
        rw [hinv.part p hpall]
        intro hpend
        exact h ⟨hpend, by simp [hpn]⟩
  · intro b' hb'
    by_cases hid : b'.batch_id = b.batch_id
    · have hbb : b' = b :=
        List.inj_on_of_nodup_map hids hb' hb hid
      right
      intro p hp
      rw [List.mem_append]
      right
      rw [hnfk]
      rw [hbb] at hp
      exact hp
    · have hdisj : ∀ p ∈ b'.file_paths, ¬ p ∈ nfk := by
        intro p hp hpn
        exact paths_disjoint plan.batches hpaths b' hb' b hb hid p hp ((hnfk p).mp hpn)
      rcases hinv.atomic b' hb' with hall | hall
      · left
        intro p hp
        rw [List.mem_filter]
        exact ⟨hall p hp, by simp [hdisj p hp]⟩
      · right
        intro p hp
        rw [List.mem_append]
        exact Or.inl (hall p hp)

theorem filter_length_flip (f g : FileBatch → Bool) :
    ∀ (L : List FileBatch) (b : FileBatch), b ∈ L →
      (L.map (fun x => x.batch_id)).Nodup →
      f b = true → g b = false →
      (∀ x ∈ L, x.batch_id ≠ b.batch_id → g x = f x) →
      (L.filter g).length + 1 = (L.filter f).length := by
  intro L
  induction L with
  | nil => intro b hb; simp at hb
  | cons h t ih =>
    intro b hb hnd hf hg hsame
    rw [List.map_cons, List.nodup_cons] at hnd
    rcases List.mem_cons.mp hb with rfl | hbt
    · rw [List.filter_cons, List.filter_cons, hf, hg]
      simp only [if_pos, if_neg, Bool.false_eq_true]
      have heq : t.filter g = t.filter f := by
        apply List.filter_congr
        intro x hx
        refine hsame x (List.mem_cons_of_mem b hx) ?_
        intro hxe
        exact hnd.1 (hxe ▸ List.mem_map.mpr ⟨x, hx, rfl⟩)
      rw [heq]
      simp
    · have hne : h.batch_id ≠ b.batch_id := by
        intro heq
        exact hnd.1 (heq ▸ List.mem_map.mpr ⟨b, hbt, rfl⟩)
      have hsh : g h = f h := hsame h (List.mem_cons_self h t) hne
      have hsame' : ∀ x ∈ t, x.batch_id ≠ b.batch_id → g x = f x :=
        fun x hx => hsame x (List.mem_cons_of_mem h hx)
      rw [List.filter_cons, List.filter_cons, hsh]
      cases hfh : f h with
      | true =>
        simp only [if_pos]
        rw [List.length_cons, List.length_cons]
        have := ih b hbt hnd.2 hf hg hsame'
        omega
      | false =>
        simp only [Bool.false_eq_true, if_neg]
        exact ih b hbt hnd.2 hf hg hsame'

theorem filterToBatch_keys_iff (b : FileBatch) (produced : List (String × String))
    (hcov : ∀ p ∈ b.file_paths, p ∈ produced.map Prod.fst) :
    ∀ q, q ∈ (filterToBatch b produced).map Prod.fst ↔ q ∈ b.file_paths := by
  intro q
  constructor
  · exact filterToBatch_keys_sub b produced q
  · intro hq
    have hmem := hcov q hq
    rw [List.mem_map] at hmem
    obtain ⟨kv, hkv, rfl⟩ := hmem
    rw [List.mem_map]
    refine ⟨kv, ?_, rfl⟩
    unfold filterToBatch
    rw [List.mem_filter]
    exact ⟨hkv, by simp [hq]⟩

theorem run_scheduler_sound (plan : GenerationPlan)
    (produce : FileBatch → List (String × String))
    (hids : (plan.batches.map (fun x => x.batch_id)).Nodup)
    (hpaths : (allPaths plan).Nodup)
    (hnonempty : ∀ b ∈ plan.batches, b.file_paths ≠ [])
    (hcovered : ∀ b ∈ plan.batches, b.batch_id ∈ orderIds plan)
    (hlay : layeredCheck plan.batches [] plan.generation_order = true)
    (hcov : Covers plan produce) :
    ∀ (fuel : Nat) (completed pending : List String),
      SchedInv plan completed pending →
      (plan.batches.filter (fun x => hasPendingFiles pending x)).length < fuel →
      ∃ vis cF,
        runScheduler plan produce fuel completed pending = Except.ok (vis, cF, [])
        ∧ ∀ b ∈ plan.batches,
            vis.count b.batch_id
              = if hasPendingFiles pending b = true then 1 else 0 := by
  intro fuel
  induction fuel with
  | zero => intro completed pending _ hlt; exact absurd hlt (Nat.not_lt_zero _)
  | succ n ih =>
    intro completed pending hinv hlt
    by_cases hpe : pending.isEmpty
    · have hpnil : pending = [] := List.isEmpty_iff.mp hpe
      subst hpnil
      refine ⟨[], completed, by simp [runScheduler], ?_⟩
      intro b hb
      have hf : hasPendingFiles [] b = false := by simp [hasPendingFiles]
      rw [hf]
      simp
    · have hpel : pending ≠ [] := by
        intro hc
        rw [hc] at hpe
        exact hpe rfl
      obtain ⟨p0, hp0⟩ := List.exists_mem_of_ne_nil pending hpel
      obtain ⟨b0, hb0, hp0b⟩ := (mem_allPaths plan p0).mp (hinv.pend_sub p0 hp0)
      have hex : ∃ bid ∈ plan.generation_order.flatten, ∃ b,
          findBatch plan.batches bid = some b ∧ hasPendingFiles pending b = true := by
        refine ⟨b0.batch_id, hcovered b0 hb0, b0,
          findBatch_self plan.batches hids b0 hb0, ?_⟩
        rw [hasPendingFiles_iff]
        exact ⟨p0, hp0b, hp0⟩
      have hsome := progress_aux plan.batches completed pending hinv.atomic hnonempty
        plan.generation_order [] hlay (by intro bid hbid; simp at hbid) hex
      rw [Option.isSome_iff_exists] at hsome
      obtain ⟨b, hnext⟩ := hsome
      have hnextb : nextReadyBatch plan completed pending = some b := hnext
      obtain ⟨hbmem, hdeps, hbpend⟩ := nextReady_some_facts hnextb
      set nfk := (filterToBatch b (produce b)).map Prod.fst with hnfkdef
      have hnfk : ∀ q, q ∈ nfk ↔ q ∈ b.file_paths :=
        filterToBatch_keys_iff b (produce b) (hcov b hbmem)
      have hinv' := sched_inv_step plan completed pending b nfk hinv hbmem hids hpaths hnfk
      have hbnp : hasPendingFiles
          (pending.filter (fun q => decide (¬ q ∈ nfk))) b = false := by
        rw [Bool.eq_false_iff]
        intro hc
        rw [hasPendingFiles_iff] at hc
        obtain ⟨q, hq, hqp⟩ := hc
        rw [List.mem_filter] at hqp
        have hqn : q ∈ nfk := (hnfk q).mpr hq
        simp [hqn] at hqp
      have hsame : ∀ x ∈ plan.batches, x.batch_id ≠ b.batch_id →
          hasPendingFiles (pending.filter (fun q => decide (¬ q ∈ nfk))) x
            = hasPendingFiles pending x := by
        intro x hx hxe
        unfold hasPendingFiles
        apply any_congr_mem
        intro p hp
        have hpn : ¬ p ∈ nfk := by
          intro hpn
          exact paths_disjoint plan.batches hpaths x hx b hbmem hxe p hp ((hnfk p).mp hpn)
        by_cases hppend : p ∈ pending
        · simp [List.mem_filter, hppend, hpn]
        · simp [List.mem_filter, hppend]
      have hflip := filter_length_flip (fun x => hasPendingFiles pending x)
        (fun x => hasPendingFiles (pending.filter (fun q => decide (¬ q ∈ nfk))) x)
        plan.batches b hbmem hids hbpend hbnp hsame
      have hlt' : (plan.batches.filter (fun x =>
          hasPendingFiles (pending.filter (fun q => decide (¬ q ∈ nfk))) x)).length < n := by
        omega
      obtain ⟨vis', cF, hrun', hcount'⟩ := ih (completed ++ nfk)
        (pending.filter (fun q => decide (¬ q ∈ nfk))) hinv' hlt'
      refine ⟨b.batch_id :: vis', cF, ?_, ?_⟩
      · simp only [runScheduler]
        rw [if_neg hpe, hnextb]
        simp only [← hnfkdef]
        rw [hrun']
      · intro b'' hb''
        by_cases hid : b''.batch_id = b.batch_id
        · have hbb : b'' = b := List.inj_on_of_nodup_map hids hb'' hbmem hid
          subst hbb
          rw [List.count_cons_self]
          have h0 := hcount' b'' hb''
          rw [hbnp] at h0
          simp only [Bool.false_eq_true, if_false] at h0
          rw [h0, hbpend]
          simp
        · rw [List.count_cons_of_ne hid, hcount' b'' hb'', hsame b'' hb'' hid]

theorem sched_inv_init (plan : GenerationPlan) : SchedInv plan [] (allPaths plan) := by
  refine ⟨?_, ?_, ?_⟩
  · intro p hp
    exact hp
  · intro p hp
    constructor
    · intro h
      exact absurd h (List.not_mem_nil p)
    · intro h
      exact absurd hp h
  · intro b hb
    left
    intro p hp
    exact (mem_allPaths plan p).mpr ⟨b, hb, hp⟩

/-- C5: for every valid plan, repeatedly running the select-next-batch /
record-batch-result cycle (with the produced map covering each selected
batch's declared paths) drains the pending set completely, visits every
batch exactly once, and the selection never returns a batch whose resolved
dependency batches are not yet fully completed. -/
theorem scheduler_visits_each_batch_once (plan : GenerationPlan)
    (produce : FileBatch → List (String × String))
    (hvalid : ValidPlan plan) (hcov : Covers plan produce) :
    (∃ vis cF,
      runScheduler plan produce (plan.batches.length + 1) [] (allPaths plan)
        = Except.ok (vis, cF, [])
      ∧ ∀ b ∈ plan.batches, vis.count b.batch_id = 1)
    ∧ (∀ completed pending b, nextReadyBatch plan completed pending = some b →
        ∀ d ∈ b.dependencies, ∀ db, findBatch plan.batches d = some db →
          ∀ q ∈ db.file_paths, q ∈ completed) := by
  obtain ⟨hids, hpaths, hnonempty, hcovered, _, hlay⟩ := hvalid
  constructor
  · have hfuel : (plan.batches.filter
        (fun x => hasPendingFiles (allPaths plan) x)).length
          < plan.batches.length + 1 :=
      Nat.lt_succ_of_le (List.length_filter_le _ _)
    obtain ⟨vis, cF, hrun, hcount⟩ := run_scheduler_sound plan produce hids hpaths
      hnonempty hcovered hlay hcov (plan.batches.length + 1) [] (allPaths plan)
      (sched_inv_init plan) hfuel
    refine ⟨vis, cF, hrun, ?_⟩
    intro b hb
    rw [hcount b hb]
    have hp : hasPendingFiles (allPaths plan) b = true := by
      rw [hasPendingFiles_iff]
      obtain ⟨p0, hp0⟩ := List.exists_mem_of_ne_nil b.file_paths (hnonempty b hb)
      exact ⟨p0, hp0, (mem_allPaths plan p0).mpr ⟨b, hb, hp0⟩⟩
    rw [hp]
    simp
  · intro completed pending b hnext d hd db hdb q hq
    obtain ⟨_, hdeps, _⟩ := nextReady_some_facts hnext
    exact (depsSatisfied_iff plan.batches completed b).mp hdeps d hd db hdb q hq

theorem scheduler_visits_each_batch_once_witness :
    ∃ vis cF,
      runScheduler
        ⟨[⟨"A", ["a"], "", [], 0⟩, ⟨"B", ["b"], "", [], 0⟩,
          ⟨"C", ["c"], "", ["A", "B"], 0⟩], 3, [["A", "B"], ["C"]]⟩
        (fun b => b.file_paths.map (fun p => (p, "")))
        4 []
        (allPaths ⟨[⟨"A", ["a"], "", [], 0⟩, ⟨"B", ["b"], "", [], 0⟩,
          ⟨"C", ["c"], "", ["A", "B"], 0⟩], 3, [["A", "B"], ["C"]]⟩)
        = Except.ok (vis, cF, [])
      ∧ ∀ b ∈ (⟨[⟨"A", ["a"], "", [], 0⟩, ⟨"B", ["b"], "", [], 0⟩,
          ⟨"C", ["c"], "", ["A", "B"], 0⟩], 3,
          [["A", "B"], ["C"]]⟩ : GenerationPlan).batches,
          vis.count b.batch_id = 1 :=
  (scheduler_visits_each_batch_once
    ⟨[⟨"A", ["a"], "", [], 0⟩, ⟨"B", ["b"], "", [], 0⟩,
      ⟨"C", ["c"], "", ["A", "B"], 0⟩], 3, [["A", "B"], ["C"]]⟩
    (fun b => b.file_paths.map (fun p => (p, "")))
    (by decide) (by decide)).1

theorem depsOfId_toFinset_sub (batches : List FileBatch) (bid : String) :
    (depsOfId batches bid).toFinset ⊆ idUniverse batches := by
  intro x hx
  rw [List.mem_toFinset] at hx
  unfold depsOfId at hx
  cases hfb : findBatch batches bid with
  | none => rw [hfb] at hx; simp at hx
  | some b' =>
    rw [hfb] at hx
    unfold idUniverse
    rw [Finset.mem_union]
    right
    rw [List.mem_toFinset, List.mem_flatten]
    exact ⟨b'.dependencies, List.mem_map.mpr ⟨b', findBatch_mem hfb, rfl⟩, hx⟩

theorem deps_toFinset_sub {batches : List FileBatch} {b : FileBatch}
    (hb : b ∈ batches) : b.dependencies.toFinset ⊆ idUniverse batches := by
  intro x hx
  rw [List.mem_toFinset] at hx
  unfold idUniverse
  rw [Finset.mem_union]
  right
  rw [List.mem_toFinset, List.mem_flatten]
  exact ⟨b.dependencies, List.mem_map.mpr ⟨b, hb, rfl⟩, hx⟩

theorem closStep_sub {batches : List FileBatch} {s : Finset String}
    (hs : s ⊆ idUniverse batches) : closStep batches s ⊆ idUniverse batches := by
  unfold closStep
  apply Finset.union_subset hs
  rw [Finset.biUnion_subset]
  intro bid _
  exact depsOfId_toFinset_sub batches bid

theorem closIter_sub {batches : List FileBatch} {b : FileBatch}
    (hb : b ∈ batches) : ∀ n, closIter batches b n ⊆ idUniverse batches := by
  intro n
  induction n with
  | zero => exact deps_toFinset_sub hb
  | succ n ih => exact closStep_sub ih

theorem closIter_mono_succ (batches : List FileBatch) (b : FileBatch) (n : Nat) :
    closIter batches b n ⊆ closIter batches b (n + 1) :=
  Finset.subset_union_left

theorem closIter_mono (batches : List FileBatch) (b : FileBatch) :
    ∀ {n m : Nat}, n ≤ m → closIter batches b n ⊆ closIter batches b m := by
  intro n m h
  induction h with
  | refl => exact subset_rfl
  | step h ih => exact ih.trans (closIter_mono_succ batches b _)

theorem closIter_stab {batches : List FileBatch} {b : FileBatch} {k : Nat}
    (h : closIter batches b (k + 1) = closIter batches b k) :
    ∀ m, k ≤ m → closIter batches b m = closIter batches b k := by
  intro m hm
  induction hm with
  | refl => rfl
  | step hm ih =>
    show closStep batches (closIter batches b _) = _
    rw [ih]
    exact h

theorem closIter_growth (batches : List FileBatch) (b : FileBatch) :
    ∀ m, (∀ k < m, closIter batches b (k + 1) ≠ closIter batches b k) →
      m ≤ (closIter batches b m).card := by
  intro m
  induction m with
  | zero => intro _; exact Nat.zero_le _
  | succ m ih =>
    intro h
    have hm := ih (fun k hk => h k (Nat.lt_succ_of_lt hk))
    have hne := h m (Nat.lt_succ_self m)
    have hss : closIter batches b m ⊂ closIter batches b (m + 1) := by
      rw [Finset.ssubset_iff_subset_ne]
      exact ⟨closIter_mono_succ batches b m, fun he => hne he.symm⟩
    have := Finset.card_lt_card hss
    omega

theorem exists_stab {batches : List FileBatch} {b : FileBatch} (hb : b ∈ batches) :
    ∃ k, k ≤ (idUniverse batches).card
      ∧ closIter batches b (k + 1) = closIter batches b k := by
  by_contra h
  push_neg at h
  have hgrow := closIter_growth batches b ((idUniverse batches).card + 1)
    (fun k hk => h k (Nat.lt_succ_iff.mp hk))
  have hcard := Finset.card_le_card (closIter_sub hb ((idUniverse batches).card + 1))
  omega

theorem mem_depClosure_iff {batches : List FileBatch} {b : FileBatch}
    (hb : b ∈ batches) (x : String) :
    x ∈ depClosure batches b ↔ ∃ n, x ∈ closIter batches b n := by
  constructor
  · intro h
    exact ⟨(idUniverse batches).card + 1, h⟩
  · rintro ⟨n, hn⟩
    obtain ⟨k, hk, hstab⟩ := exists_stab hb
    rcases Nat.le_total n ((idUniverse batches).card + 1) with h | h
    · exact closIter_mono batches b h hn
    · have h1 : closIter batches b n = closIter batches b k :=
        closIter_stab hstab n (by omega)
      have h2 : depClosure batches b = closIter batches b k :=
        closIter_stab hstab ((idUniverse batches).card + 1) (by omega)
      rw [h1] at hn
      rw [h2]
      exact hn

theorem cyclicCheck_iff (plan : GenerationPlan) :
    cyclicCheck plan = true ↔ Cyclic plan := by
  unfold cyclicCheck Cyclic
  rw [List.any_eq_true]
  constructor
  · rintro ⟨b, hb, hmem⟩
    rw [decide_eq_true_eq] at hmem
    exact ⟨b, hb, ((mem_depClosure_iff hb b.batch_id).mp hmem)⟩
  · rintro ⟨b, hb, n, hn⟩
    refine ⟨b, hb, ?_⟩
    rw [decide_eq_true_eq]
    exact (mem_depClosure_iff hb b.batch_id).mpr ⟨n, hn⟩

theorem dupArtifactCheck_iff : ∀ L : List FileBatch,
    dupArtifactCheck L = true ↔
      ¬ L.Pairwise (fun b b' => ∀ p ∈ b.file_paths, ¬ p ∈ b'.file_paths) := by
  intro L
  induction L with
  | nil => simp [dupArtifactCheck]
  | cons b rest ih =>
    rw [dupArtifactCheck, Bool.or_eq_true, ih, List.pairwise_cons]
    simp only [List.any_eq_true, decide_eq_true_eq]
    constructor
    · rintro (⟨p, hp, b', hb', hpb'⟩ | hnp)
      · intro hcon
        exact hcon.1 b' hb' p hp hpb'
      · intro hcon
        exact hnp hcon.2
    · intro hcon
      by_cases hall : ∀ b' ∈ rest, ∀ p ∈ b.file_paths, ¬ p ∈ b'.file_paths
      · right
        intro hp
        exact hcon ⟨hall, hp⟩
      · left
        push_neg at hall
        obtain ⟨b', hb', p, hp, hpb'⟩ := hall
        exact ⟨p, hp, b', hb', hpb'⟩

theorem orphanCheck_iff (plan : GenerationPlan) :
    orphanCheck plan = true ↔ OrphanedSteps plan := by
  unfold orphanCheck OrphanedSteps
  rw [Bool.or_eq_true]
  constructor
  · rintro (h | h)
    · rw [List.any_eq_true] at h
      obtain ⟨bid, hbid, hnone⟩ := h
      left
      refine ⟨bid, hbid, ?_⟩
      intro b hb heq
      rw [Option.isNone_iff_eq_none] at hnone
      unfold findBatch at hnone
      rw [List.find?_eq_none] at hnone
      exact hnone b hb (by simp [heq])
    · rw [List.any_eq_true] at h
      obtain ⟨b, hb, hmem⟩ := h
      right
      exact ⟨b, hb, by simpa using hmem⟩
  · rintro (⟨bid, hbid, hall⟩ | ⟨b, hb, hmem⟩)
    · left
      rw [List.any_eq_true]
      refine ⟨bid, hbid, ?_⟩
      rw [Option.isNone_iff_eq_none]
      unfold findBatch
      rw [List.find?_eq_none]
      intro b hb
      simp [hall b hb]
    · right
      rw [List.any_eq_true]
      exact ⟨b, hb, by simpa using hmem⟩

/-- C9 (spec-modelled; `validate_plan` is specified in spec section 4.1 but
implemented nowhere under `src/`): plan validation fails with
`CyclicDependency` exactly when some batch's dependency closure includes
itself, with `DuplicateArtifact` exactly when (no cycle and) an artifact
path is declared by more than one batch, with `OrphanStep` exactly when (no
cycle, no duplicate and) the execution steps reference a batch id absent
from the batch set or omit one present in it; it accepts the plan exactly
when none of the three conditions holds.  The function is pure — it has no
side effects by construction. -/
theorem validate_plan_spec (plan : GenerationPlan) :
    (validate_plan plan = Except.error PlanError.CyclicDependency ↔ Cyclic plan)
    ∧ (validate_plan plan = Except.error PlanError.DuplicateArtifact ↔
        ¬ Cyclic plan ∧ DupArtifact plan)
    ∧ (validate_plan plan = Except.error PlanError.OrphanStep ↔
        ¬ Cyclic plan ∧ ¬ DupArtifact plan ∧ OrphanedSteps plan)
    ∧ (validate_plan plan = Except.ok () ↔
        ¬ Cyclic plan ∧ ¬ DupArtifact plan ∧ ¬ OrphanedSteps plan) := by
  unfold validate_plan
  by_cases h1 : cyclicCheck plan = true
  · have hc : Cyclic plan := (cyclicCheck_iff plan).mp h1
    rw [if_pos h1]
    refine ⟨⟨fun _ => hc, fun _ => rfl⟩, ?_, ?_, ?_⟩
    · constructor
      · intro h; cases h
      · rintro ⟨hnc, _⟩; exact absurd hc hnc
    · constructor
      · intro h; cases h
      · rintro ⟨hnc, _⟩; exact absurd hc hnc
    · constructor
      · intro h; cases h
      · rintro ⟨hnc, _⟩; exact absurd hc hnc
  · have hnc : ¬ Cyclic plan := fun hc => h1 ((cyclicCheck_iff plan).mpr hc)
    rw [if_neg h1]
    by_cases h2 : dupArtifactCheck plan.batches = true
    · have hd : DupArtifact plan := (dupArtifactCheck_iff plan.batches).mp h2
      rw [if_pos h2]
      refine ⟨?_, ⟨fun _ => ⟨hnc, hd⟩, fun _ => rfl⟩, ?_, ?_⟩
      · constructor
        · intro h; cases h
        · intro hc; exact absurd hc hnc
      · constructor
        · intro h; cases h
        · rintro ⟨_, hnd, _⟩; exact absurd hd hnd
      · constructor
        · intro h; cases h
        · rintro ⟨_, hnd, _⟩; exact absurd hd hnd
    · have hnd : ¬ DupArtifact plan :=
        fun hd => h2 ((dupArtifactCheck_iff plan.batches).mpr hd)
      rw [if_neg h2]
      by_cases h3 : orphanCheck plan = true
      · have ho : OrphanedSteps plan := (orphanCheck_iff plan).mp h3
        rw [if_pos h3]
        refine ⟨?_, ?_, ⟨fun _ => ⟨hnc, hnd, ho⟩, fun _ => rfl⟩, ?_⟩
        · constructor
          · intro h; cases h
          · intro hc; exact absurd hc hnc
        · constructor
          · intro h; cases h
          · rintro ⟨_, hd⟩; exact absurd hd hnd
        · constructor
          · intro h; cases h
          · rintro ⟨_, _, hno⟩; exact absurd ho hno
      · have hno : ¬ OrphanedSteps plan :=
          fun ho => h3 ((orphanCheck_iff plan).mpr ho)
        rw [if_neg h3]
        refine ⟨?_, ?_, ?_, ⟨fun _ => ⟨hnc, hnd, hno⟩, fun _ => rfl⟩⟩
        · constructor
          · intro h; cases h
          · intro hc; exact absurd hc hnc
        · constructor
          · intro h; cases h
          · rintro ⟨_, hd⟩; exact absurd hd hnd
        · constructor
          · intro h; cases h
          · rintro ⟨_, _, ho⟩; exact absurd ho hno
